import Mathlib

/-!
Shallow embedding of the `monkeys` repository (random-portfolio simulator).

Python floats are modelled as exact rationals (`ℚ`) in the portfolio module
and as reals (`ℝ`) in the data module (where a logarithm is needed).
`np.random.default_rng(seed)` is modelled as an abstract stream of uniform
samples `stream : ℕ → ℚ`: the draw `rng.uniform(0, 1, n)` starting at stream
position `pos` yields `stream pos, stream (pos+1), ...` and advances the
position by `n`.  Python exceptions are modelled with `Except Err`.
-/

inductive Err where
  | valueError (msg : String)
  | fileNotFound (msg : String)
  | computeError (msg : String)
  deriving DecidableEq, Repr

deriving instance DecidableEq for Except

/-- `np.isclose(a, b)` with numpy's default tolerances
`rtol = 1e-5`, `atol = 1e-8`: `|a - b| <= atol + rtol * |b|`. -/
def np_isclose (a b : ℚ) : Bool :=
  decide (|a - b| ≤ 1 / 100000000 + (1 / 100000) * |b|)

/-- `np.dot` of two equal-length vectors (modelled on lists; `zipWith`
truncates to the shorter list, callers establish equal lengths). -/
def np_dot (v w : List ℚ) : ℚ :=
  (List.zipWith (· * ·) v w).sum

/-- The uniform selection probabilities `np.ones(n)/n` used when
`probabilities is None`. -/
def uniformProbs (n : ℕ) : List ℚ :=
  List.replicate n (1 / (n : ℚ))

/-- One weight draw, the common core of all three generators
(`portfolio.py` lines 111-117, 164-170, 259-261):
`u = rng.uniform(0, 1, n)` starting at stream position `pos`,
`raw = probabilities * u`, `w = raw / raw.sum()`. -/
def drawWeights (probs : List ℚ) (stream : ℕ → ℚ) (pos n : ℕ) : List ℚ :=
  let u := (List.range n).map (fun i => stream (pos + i))
  let raw := List.zipWith (· * ·) probs u
  raw.map (fun r => r / raw.sum)

/-- `simulate_random_weights(n_assets, seed, probabilities)`
(`portfolio.py` lines 64-118).  The rng seeded at line 100 is the
abstract `stream`. -/
def simulate_random_weights (n_assets : ℕ) (stream : ℕ → ℚ)
    (probabilities : Option (List ℚ)) : Except Err (List ℚ) :=
  if n_assets < 1 then
    .error (.valueError "n_assets must be positive")
  else
    match probabilities with
    | none => .ok (drawWeights (uniformProbs n_assets) stream 0 n_assets)
    | some probs =>
      if probs.length ≠ n_assets then
        .error (.valueError "probabilities length must match n_assets")
      else if ¬ np_isclose probs.sum 1 then
        .error (.valueError "probabilities must sum to 1.0")
      else
        .ok (drawWeights probs stream 0 n_assets)

/-- `generate_weight_history(n_assets, n_periods, seed, probabilities)`
(`portfolio.py` lines 121-171).  Row `t` of the `(n_periods, n_assets)`
uniform-sample matrix occupies stream positions `t*n_assets ..`.
Note the source checks only `n_periods < 1` and the probability sum:
there is no `n_assets` check and no probabilities-length check.  The
product `probabilities * uniform_samples` follows numpy broadcasting of
`(m,)` against `(n_periods, n_assets)`: it succeeds when `m = n_assets`,
when `m = 1` (the single entry scales every column), or when
`n_assets = 1` (each row's single sample is scaled by every entry,
giving rows of width `m`); any other shape pair fails to broadcast and
raises `ValueError`. -/
def generate_weight_history (n_assets n_periods : ℕ) (stream : ℕ → ℚ)
    (probabilities : Option (List ℚ)) : Except Err (List (List ℚ)) :=
  if n_periods < 1 then
    .error (.valueError "n_periods must be positive")
  else
    match probabilities with
    | none =>
      .ok ((List.range n_periods).map (fun t =>
        drawWeights (uniformProbs n_assets) stream (t * n_assets) n_assets))
    | some probs =>
      if ¬ np_isclose probs.sum 1 then
        .error (.valueError "probabilities must sum to 1.0")
      else if probs.length = n_assets then
        .ok ((List.range n_periods).map (fun t =>
          drawWeights probs stream (t * n_assets) n_assets))
      else if probs.length = 1 then
        .ok ((List.range n_periods).map (fun t =>
          drawWeights (List.replicate n_assets (probs.headD 0)) stream
            (t * n_assets) n_assets))
      else if n_assets = 1 then
        .ok ((List.range n_periods).map (fun t =>
          let u := stream (t * n_assets)
          let raw := probs.map (fun p => p * u)
          raw.map (fun r => r / raw.sum)))
      else
        .error (.valueError "operands could not be broadcast together")

/-- `calculate_portfolio_return(weights, returns)`
(`portfolio.py` lines 174-202): a length check then `np.dot`. -/
def calculate_portfolio_return (weights returns : List ℚ) : Except Err ℚ :=
  if weights.length ≠ returns.length then
    .error (.valueError "weights length must match returns length")
  else
    .ok (np_dot weights returns)

/-- The loop of `simulate_portfolio_returns` (`portfolio.py` lines 253-263):
period index `t`, stream position `pos`, held weights `cur`
(`None` before the first draw). -/
def simLoop (k n : ℕ) (probs : List ℚ) (stream : ℕ → ℚ) :
    List (List ℚ) → ℕ → ℕ → Option (List ℚ) → List ℚ
  | [], _, _, _ => []
  | row :: rest, t, pos, cur =>
    if t % k = 0 ∨ cur = none then
      let w := drawWeights probs stream pos n
      np_dot w row :: simLoop k n probs stream rest (t + 1) (pos + n) (some w)
    else
      np_dot (cur.getD []) row :: simLoop k n probs stream rest (t + 1) pos cur

/-- `simulate_portfolio_returns(returns, seed, probabilities,
rebalance_frequency)` (`portfolio.py` lines 205-265).  The returns matrix
is a list of rows; `n_assets` is its second dimension (length of the first
row), matching `returns.shape`.  The 2-dimensionality check of line 239 is
structural in this embedding (the argument is a list of rows). -/
def simulate_portfolio_returns (returns : List (List ℚ)) (stream : ℕ → ℚ)
    (probabilities : Option (List ℚ)) (rebalance_frequency : ℕ) :
    Except Err (List ℚ) :=
  if rebalance_frequency < 1 then
    .error (.valueError "rebalance_frequency must be positive")
  else
    let n := (returns.headD []).length
    let probs := probabilities.getD (uniformProbs n)
    .ok (simLoop rebalance_frequency n probs stream returns 0 0 none)

/-- The `MonkeyPortfolio` dataclass (`portfolio.py` lines 18-61),
after a successful `__post_init__`. -/
structure MonkeyPortfolio where
  weights : List ℚ
  tickers : List String
  seed : Option ℤ
  deriving Repr

def MonkeyPortfolio.n_assets (p : MonkeyPortfolio) : ℕ :=
  p.tickers.length

/-- Constructing a `MonkeyPortfolio`, i.e. the dataclass `__init__`
followed by `__post_init__` (`portfolio.py` lines 46-56): length check,
`np.isclose(weights.sum(), 1.0)` check, non-negativity check. -/
def mkMonkeyPortfolio (weights : List ℚ) (tickers : List String)
    (seed : Option ℤ) : Except Err MonkeyPortfolio :=
  if weights.length ≠ tickers.length then
    .error (.valueError "weights length must match tickers length")
  else if ¬ np_isclose weights.sum 1 then
    .error (.valueError "weights must sum to 1.0")
  else if weights.any (fun w => w < 0) then
    .error (.valueError "weights must be non-negative (long-only portfolio)")
  else
    .ok ⟨weights, tickers, seed⟩

/-!
Embedding of `data.py`.  A polars `DataFrame` with a leading `Date` column
is modelled as a date column (dates are abstract, never null) plus a list
of named value columns of nullable floats (`Option ℝ`).  The reals carry
the transcendental `log` of the log-return method.
-/

/-- A polars frame as produced by the loader: a `Date` column plus named
nullable-float columns. -/
structure PFrame where
  dates : List ℤ
  cols : List (String × List (Option ℝ))

/-- `row i` has a null in some column (out-of-range reads count as null,
matching a ragged access never produced by polars). -/
def rowAllSome (cols : List (String × List (Option ℝ))) (i : ℕ) : Bool :=
  cols.all (fun c => (c.2.getD i none).isSome)

/-- Keep the entries of `l` whose mask bit is `true` (row filtering). -/
def applyMask {α : Type} : List α → List Bool → List α
  | [], _ => []
  | _ :: _, [] => []
  | x :: xs, b :: bs => if b then x :: applyMask xs bs else applyMask xs bs

/-- polars `DataFrame.drop_nulls()`: drop every row that has a null in any
column (the date column is never null in this model). -/
def dropNullRows (f : PFrame) : PFrame :=
  let mask := (List.range f.dates.length).map (rowAllSome f.cols)
  ⟨applyMask f.dates mask, f.cols.map (fun c => (c.1, applyMask c.2 mask))⟩

/-- The running computation of polars `Expr.pct_change()`: `prev` carries
the most recent non-null value seen so far (i.e. the forward-filled
shifted column).  Entry `t` is `x_t / prev - 1` when both are present and
null otherwise; `prev` is updated to `x_t` whenever `x_t` is non-null. -/
noncomputable def pctGo (prev : Option ℝ) : List (Option ℝ) → List (Option ℝ)
  | [] => []
  | x :: rest =>
    (match prev, x with
     | some p, some y => some (y / p - 1)
     | _, _ => none) ::
      pctGo (match x with | some _ => x | none => prev) rest

/-- polars `Expr.pct_change()` on a column: the percentage change of each
entry versus the most recent non-null *earlier* entry (polars forward-fills
the shifted column before dividing), e.g.
`[10, 11, 12, null, 12] ↦ [null, 0.1, 0.0909..., null, 0.0]`.
An entry is null when the current value is null or no earlier non-null
value exists (in particular the first entry is always null). -/
noncomputable def pctChangeCol (c : List (Option ℝ)) : List (Option ℝ) :=
  pctGo none c

/-- polars `Expr.diff()` on a column: first entry null, entry `t` is
`x_t - x_{t-1}`, null when either neighbour is null. -/
noncomputable def diffCol (c : List (Option ℝ)) : List (Option ℝ) :=
  match c with
  | [] => []
  | _ :: _ =>
    none :: List.zipWith
      (fun a b => a.bind (fun x => b.map (fun y => y - x))) c c.tail

/-- polars `Expr.log()` on a column: elementwise natural log, nulls kept. -/
noncomputable def logCol (c : List (Option ℝ)) : List (Option ℝ) :=
  c.map (Option.map Real.log)

/-- `calculate_returns(prices, method)` (`data.py` lines 74-102):
`ticker_cols = [col for col in prices.columns if col != "Date"]`, then for
"simple" select `Date` plus `pct_change` of each ticker column and
`drop_nulls()`; for "log" select `Date` plus `log().diff()` of each ticker
column and `drop_nulls()`; any other method raises `ValueError`. -/
noncomputable def calculate_returns (prices : PFrame) (method : String) :
    Except Err PFrame :=
  let ticker_cols := prices.cols.filter (fun c => c.1 ≠ "Date")
  if method = "simple" then
    .ok (dropNullRows
      ⟨prices.dates, ticker_cols.map (fun c => (c.1, pctChangeCol c.2))⟩)
  else if method = "log" then
    .ok (dropNullRows
      ⟨prices.dates, ticker_cols.map (fun c => (c.1, diffCol (logCol c.2)))⟩)
  else
    .error (.valueError "Unknown return method")

/-- `get_valid_tickers(prices, min_observations)` (`data.py` lines
105-125): for each non-`Date` column, count non-null entries
(`is_not_null().sum()`) and keep the column name iff the count reaches
`min_observations`. -/
def get_valid_tickers (prices : PFrame) (min_observations : ℕ) :
    List String :=
  let ticker_cols := prices.cols.filter (fun c => c.1 ≠ "Date")
  (ticker_cols.filter (fun c =>
    min_observations ≤ c.2.countP (fun cell => cell.isSome))).map (fun c => c.1)

/-- A raw CSV cell as delivered by `pl.read_csv`: an empty field (null),
a numeric field, or a textual field that does not parse as a number. -/
inductive Cell where
  | blank
  | num (q : ℝ)
  | text (s : String)

/-- The parse of one CSV file: the `Date` column (parsed by
`try_parse_dates`) and the remaining raw columns. -/
structure RawFrame where
  dates : List ℤ
  cols : List (String × List Cell)

/-- polars `cast(pl.Float64)` on one cell, with the default `strict=True`:
nulls stay null, numbers convert, unparsable text raises. -/
def castCell : Cell → Except Err (Option ℝ)
  | .blank => .ok none
  | .num q => .ok (some q)
  | .text _ => .error (.computeError "conversion from str to f64 failed")

/-- Strict `cast(pl.Float64)` of a whole column. -/
def castColumn (cells : List Cell) : Except Err (List (Option ℝ)) :=
  cells.mapM castCell

/-- `load_prices_from_csv(filepath)` (`data.py` lines 41-71).  The file
system and `pl.read_csv` are abstracted into `fs`, mapping a path to the
parsed file when the path exists.  The source then checks `is_empty()`
(zero rows) and casts every non-`Date` column to `Float64`; the cast is
polars' default strict cast, so a textual cell aborts the load. -/
def load_prices_from_csv (fs : String → Option RawFrame)
    (filepath : String) : Except Err PFrame :=
  match fs filepath with
  | none => .error (.fileNotFound "Price file not found")
  | some raw =>
    if raw.dates.isEmpty then
      .error (.valueError "Price file is empty")
    else
      match (raw.cols.filter (fun c => c.1 ≠ "Date")).mapM
          (fun c => (castColumn c.2).map (fun col => (c.1, col))) with
      | .error e => .error e
      | .ok cols => .ok ⟨raw.dates, cols⟩

/-! Helper lemmas about the weight draw. -/

lemma sum_map_div (l : List ℚ) (s : ℚ) :
    (l.map (fun r => r / s)).sum = l.sum / s := by
  induction l with
  | nil => simp
  | cons x xs ih => simp [ih, add_div]

lemma mem_zipWith_mul {l1 l2 : List ℚ} {x : ℚ}
    (hx : x ∈ List.zipWith (· * ·) l1 l2) :
    ∃ a ∈ l1, ∃ b ∈ l2, x = a * b := by
  induction l1 generalizing l2 with
  | nil => simp at hx
  | cons a as ih =>
    cases l2 with
    | nil => simp at hx
    | cons b bs =>
      rcases List.mem_cons.mp hx with h | h
      · exact ⟨a, List.mem_cons_self a as, b, List.mem_cons_self b bs, h⟩
      · rcases ih h with ⟨a2, ha, b2, hb, hx2⟩
        exact ⟨a2, List.mem_cons_of_mem a ha, b2, List.mem_cons_of_mem b hb, hx2⟩

lemma drawWeights_length (probs : List ℚ) (stream : ℕ → ℚ) (pos n : ℕ)
    (h : probs.length = n) : (drawWeights probs stream pos n).length = n := by
  simp [drawWeights, h]

lemma drawWeights_simplex (probs : List ℚ) (stream : ℕ → ℚ) (pos n : ℕ)
    (hlen : probs.length = n) (hn : 1 ≤ n)
    (hp : ∀ p ∈ probs, 0 < p) (hs : ∀ i, 0 < stream i) :
    (∀ x ∈ drawWeights probs stream pos n, 0 ≤ x) ∧
      (drawWeights probs stream pos n).sum = 1 := by
  have hrawpos : ∀ x ∈ List.zipWith (· * ·) probs
      ((List.range n).map (fun i => stream (pos + i))), 0 < x := by
    intro x hx
    rcases mem_zipWith_mul hx with ⟨a, ha, b, hb, rfl⟩
    rcases List.mem_map.mp hb with ⟨i, _, rfl⟩
    exact mul_pos (hp a ha) (hs (pos + i))
  have hrawne : List.zipWith (· * ·) probs
      ((List.range n).map (fun i => stream (pos + i))) ≠ [] := by
    intro hcon
    have := congrArg List.length hcon
    simp [hlen] at this
    omega
  have hsumpos : 0 < (List.zipWith (· * ·) probs
      ((List.range n).map (fun i => stream (pos + i)))).sum :=
    List.sum_pos _ hrawpos hrawne
  constructor
  · intro x hx
    simp only [drawWeights, List.mem_map] at hx
    rcases hx with ⟨r, hr, rfl⟩
    exact div_nonneg (le_of_lt (hrawpos r hr)) (le_of_lt hsumpos)
  · simp only [drawWeights]
    rw [sum_map_div, div_self (ne_of_gt hsumpos)]

lemma uniformProbs_pos (n : ℕ) (hn : 1 ≤ n) :
    ∀ p ∈ uniformProbs n, 0 < p := by
  intro p hp
  rcases List.eq_of_mem_replicate hp with rfl
  positivity

lemma uniformProbs_length (n : ℕ) : (uniformProbs n).length = n := by
  simp [uniformProbs]

/-- C1: every weight vector returned by `simulate_random_weights`, and every
row of `generate_weight_history`, lies on the probability simplex: each
component is non-negative and the components sum to exactly `1` (hence in
particular to `1.0` within the absolute tolerance `1e-9`).  The abstract
seed-derived stream is assumed to deliver strictly positive uniform samples
(`rng.uniform(0,1)` samples are almost surely nonzero). -/
theorem weights_on_simplex (n T : ℕ) (stream : ℕ → ℚ)
    (hn : 1 ≤ n) (hT : 1 ≤ T) (hs : ∀ i, 0 < stream i) :
    (∃ w, simulate_random_weights n stream none = .ok w ∧
      w.length = n ∧ (∀ x ∈ w, 0 ≤ x) ∧ w.sum = 1 ∧
      |w.sum - 1| ≤ 1 / 1000000000) ∧
    (∃ H, generate_weight_history n T stream none = .ok H ∧
      H.length = T ∧ ∀ row ∈ H, row.length = n ∧ (∀ x ∈ row, 0 ≤ x) ∧
        row.sum = 1 ∧ |row.sum - 1| ≤ 1 / 1000000000) := by
  constructor
  · refine ⟨drawWeights (uniformProbs n) stream 0 n, ?_, ?_, ?_, ?_, ?_⟩
    · simp [simulate_random_weights, Nat.not_lt.mpr hn]
    · exact drawWeights_length _ _ _ _ (uniformProbs_length n)
    · exact (drawWeights_simplex _ _ _ _ (uniformProbs_length n) hn
        (uniformProbs_pos n hn) hs).1
    · exact (drawWeights_simplex _ _ _ _ (uniformProbs_length n) hn
        (uniformProbs_pos n hn) hs).2
    · rw [(drawWeights_simplex _ _ _ _ (uniformProbs_length n) hn
        (uniformProbs_pos n hn) hs).2]
      norm_num
  · refine ⟨(List.range T).map (fun t =>
      drawWeights (uniformProbs n) stream (t * n) n), ?_, ?_, ?_⟩
    · simp [generate_weight_history, Nat.not_lt.mpr hT]
    · simp
    · intro row hrow
      rcases List.mem_map.mp hrow with ⟨t, _, rfl⟩
      refine ⟨drawWeights_length _ _ _ _ (uniformProbs_length n),
        (drawWeights_simplex _ _ _ _ (uniformProbs_length n) hn
          (uniformProbs_pos n hn) hs).1,
        (drawWeights_simplex _ _ _ _ (uniformProbs_length n) hn
          (uniformProbs_pos n hn) hs).2, ?_⟩
      rw [(drawWeights_simplex _ _ _ _ (uniformProbs_length n) hn
        (uniformProbs_pos n hn) hs).2]
      norm_num

theorem weights_on_simplex_witness :
    (∃ w, simulate_random_weights 2 (fun _ => (1 : ℚ) / 2) none = .ok w ∧
      w.length = 2 ∧ (∀ x ∈ w, 0 ≤ x) ∧ w.sum = 1 ∧
      |w.sum - 1| ≤ 1 / 1000000000) ∧
    (∃ H, generate_weight_history 2 3 (fun _ => (1 : ℚ) / 2) none = .ok H ∧
      H.length = 3 ∧ ∀ row ∈ H, row.length = 2 ∧ (∀ x ∈ row, 0 ≤ x) ∧
        row.sum = 1 ∧ |row.sum - 1| ≤ 1 / 1000000000) :=
  weights_on_simplex 2 3 (fun _ => (1 : ℚ) / 2) (by decide) (by decide)
    (fun _ => by norm_num)

/-! Arithmetic facts about the rebalance blocks. -/

lemma block_div_succ {k t : ℕ} (ht : 1 ≤ t) (h : t % k = 0) :
    (t - 1) / k + 1 = t / k := by
  obtain ⟨t, rfl⟩ := Nat.exists_eq_add_of_le ht
  have hdvd : k ∣ 1 + t := Nat.dvd_of_mod_eq_zero h
  calc (1 + t - 1) / k + 1 = t / k + 1 := by simp
    _ = (t + 1) / k := (Nat.succ_div_of_dvd (by simpa [Nat.add_comm] using hdvd)).symm
    _ = (1 + t) / k := by rw [Nat.add_comm]

lemma block_div_pred {k t : ℕ} (h : t % k ≠ 0) : (t - 1) / k = t / k := by
  have ht : 1 ≤ t := by
    rcases Nat.eq_zero_or_pos t with rfl | h1
    · simp at h
    · exact h1
  obtain ⟨t, rfl⟩ := Nat.exists_eq_add_of_le ht
  have hndvd : ¬ k ∣ 1 + t := fun hdvd => h (Nat.mod_eq_zero_of_dvd hdvd)
  calc (1 + t - 1) / k = t / k := by simp
    _ = (t + 1) / k := (Nat.succ_div_of_not_dvd (by simpa [Nat.add_comm] using hndvd)).symm
    _ = (1 + t) / k := by rw [Nat.add_comm]

lemma simLoop_length (k n : ℕ) (probs : List ℚ) (stream : ℕ → ℚ) :
    ∀ (rows : List (List ℚ)) (t pos : ℕ) (cur : Option (List ℚ)),
      (simLoop k n probs stream rows t pos cur).length = rows.length := by
  intro rows
  induction rows with
  | nil => intro t pos cur; simp [simLoop]
  | cons row rest ih =>
    intro t pos cur
    rw [simLoop]
    split
    · simp [ih]
    · simp [ih]

lemma simLoop_state_machine (k n : ℕ) (hk : 1 ≤ k) (probs : List ℚ)
    (stream : ℕ → ℚ) :
    ∀ (rows : List (List ℚ)) (t pos : ℕ) (cur : Option (List ℚ)),
      ((t = 0 ∧ cur = none ∧ pos = 0) ∨
        (1 ≤ t ∧ cur = some (drawWeights probs stream (n * ((t - 1) / k)) n) ∧
          pos = n * ((t - 1) / k + 1))) →
      ∀ j, (simLoop k n probs stream rows t pos cur).get? j =
        (rows.get? j).map (fun row =>
          np_dot (drawWeights probs stream (n * ((t + j) / k)) n) row) := by
  intro rows
  induction rows with
  | nil => intro t pos cur _ j; simp [simLoop]
  | cons row rest ih =>
    intro t pos cur hinv j
    by_cases hmod : t % k = 0
    · have hpos : pos = n * (t / k) := by
        rcases hinv with ⟨rfl, _, rfl⟩ | ⟨ht, _, rfl⟩
        · simp
        · rw [block_div_succ ht hmod]
      subst hpos
      rw [simLoop, if_pos (Or.inl hmod)]
      cases j with
      | zero => simp
      | succ j =>
        rw [List.get?_cons_succ, List.get?_cons_succ,
          show t + (j + 1) = t + 1 + j by omega]
        exact ih (t + 1) (n * (t / k) + n)
          (some (drawWeights probs stream (n * (t / k)) n))
          (Or.inr ⟨Nat.le_add_left 1 t, by simp, by simp [Nat.mul_succ]⟩) j
    · rcases hinv with ⟨rfl, _, _⟩ | ⟨ht, hcur, hposv⟩
      · exact absurd (Nat.zero_mod k) hmod
      have hblock : (t - 1) / k = t / k := block_div_pred hmod
      have hcurne : ¬ (t % k = 0 ∨ cur = none) := by
        rcases hcur with rfl
        simp [hmod]
      rw [simLoop, if_neg hcurne]
      cases j with
      | zero =>
        rcases hcur with rfl
        simp [hblock]
      | succ j =>
        rw [List.get?_cons_succ, List.get?_cons_succ,
          show t + (j + 1) = t + 1 + j by omega]
        refine ih (t + 1) pos cur (Or.inr ⟨Nat.le_add_left 1 t, ?_, ?_⟩) j
        · rcases hcur with rfl
          rw [hblock]
          simp
        · rw [hposv, hblock]
          simp

/-- C2: `simulate_portfolio_returns` realizes the rebalance state machine.
The output has one entry per period, and the entry at 0-based period `t` is
the dot product of row `t` of the returns matrix with the weight vector
drawn from the shared stream at position `n_assets * (t / k)` — i.e. the
vector drawn when period `k * (t / k)`, the start of `t`'s rebalance block,
was processed.  Hence a fresh draw happens exactly at `t % k = 0` (period 0
included, where no weights are held yet), the stream advances by `n_assets`
per draw, and the held weights are identical across any run of `k`
consecutive periods starting at a multiple of `k`. -/
theorem simulate_portfolio_state_machine (rows : List (List ℚ))
    (stream : ℕ → ℚ) (k : ℕ) (hk : 1 ≤ k) :
    ∃ out, simulate_portfolio_returns rows stream none k = .ok out ∧
      out.length = rows.length ∧
      ∀ t, out.get? t = (rows.get? t).map (fun row =>
        np_dot (drawWeights (uniformProbs (rows.headD []).length) stream
          ((rows.headD []).length * (t / k)) (rows.headD []).length) row) := by
  refine ⟨simLoop k (rows.headD []).length
      (uniformProbs (rows.headD []).length) stream rows 0 0 none, ?_, ?_, ?_⟩
  · simp [simulate_portfolio_returns, Nat.not_lt.mpr hk]
  · exact simLoop_length _ _ _ _ rows 0 0 none
  · intro t
    have := simLoop_state_machine k (rows.headD []).length hk
      (uniformProbs (rows.headD []).length) stream rows 0 0 none
      (Or.inl ⟨rfl, rfl, rfl⟩) t
    simpa using this

theorem simulate_portfolio_state_machine_witness :
    ∃ out, simulate_portfolio_returns [[1, 2], [3, 4], [5, 6]]
        (fun _ => (1 : ℚ) / 2) none 2 = .ok out ∧
      out.length = 3 ∧
      ∀ t, out.get? t = (([[1, 2], [3, 4], [5, 6]] :
          List (List ℚ)).get? t).map (fun row =>
        np_dot (drawWeights (uniformProbs 2) (fun _ => (1 : ℚ) / 2)
          (2 * (t / 2)) 2) row) :=
  simulate_portfolio_state_machine [[1, 2], [3, 4], [5, 6]]
    (fun _ => (1 : ℚ) / 2) 2 (by decide)

/-! Determinism: outputs depend only on the consumed prefix of the stream. -/

lemma drawWeights_congr (probs : List ℚ) (s1 s2 : ℕ → ℚ) (pos n : ℕ)
    (h : ∀ i, i < n → s1 (pos + i) = s2 (pos + i)) :
    drawWeights probs s1 pos n = drawWeights probs s2 pos n := by
  have hu : (List.range n).map (fun i => s1 (pos + i)) =
      (List.range n).map (fun i => s2 (pos + i)) :=
    List.map_congr_left (fun i hi => h i (List.mem_range.mp hi))
  simp only [drawWeights]
  rw [hu]

lemma simulate_random_weights_congr (n : ℕ) (p : Option (List ℚ))
    (s1 s2 : ℕ → ℚ) (h : ∀ i, i < n → s1 i = s2 i) :
    simulate_random_weights n s1 p = simulate_random_weights n s2 p := by
  have hw : ∀ probs : List ℚ,
      drawWeights probs s1 0 n = drawWeights probs s2 0 n := by
    intro probs
    exact drawWeights_congr probs s1 s2 0 n (fun i hi => by
      simpa using h i hi)
  by_cases hn : n < 1
  · simp [simulate_random_weights, hn]
  · cases p with
    | none => simp [simulate_random_weights, hn, hw]
    | some probs =>
      simp only [simulate_random_weights, if_neg hn]
      split_ifs <;> simp [hw]

lemma generate_weight_history_congr (n T : ℕ) (p : Option (List ℚ))
    (s1 s2 : ℕ → ℚ) (h : ∀ i, i < T * n → s1 i = s2 i) :
    generate_weight_history n T s1 p = generate_weight_history n T s2 p := by
  have hdraw : ∀ probs : List ℚ,
      (List.range T).map (fun t => drawWeights probs s1 (t * n) n) =
      (List.range T).map (fun t => drawWeights probs s2 (t * n) n) := by
    intro probs
    apply List.map_congr_left
    intro t ht
    apply drawWeights_congr
    intro i hi
    apply h
    have htT : t + 1 ≤ T := List.mem_range.mp ht
    calc t * n + i < t * n + n := Nat.add_lt_add_left hi _
      _ = (t + 1) * n := (Nat.succ_mul t n).symm
      _ ≤ T * n := Nat.mul_le_mul_right n htT
  have hdraw1 : ∀ (probs : List ℚ), n = 1 →
      (List.range T).map (fun t =>
        let u := s1 (t * n)
        let raw := probs.map (fun p => p * u)
        raw.map (fun r => r / raw.sum)) =
      (List.range T).map (fun t =>
        let u := s2 (t * n)
        let raw := probs.map (fun p => p * u)
        raw.map (fun r => r / raw.sum)) := by
    intro probs hn1
    apply List.map_congr_left
    intro t ht
    have hs : s1 (t * n) = s2 (t * n) := by
      apply h
      have htT : t < T := List.mem_range.mp ht
      subst hn1
      simpa using htT
    rw [hs]
  by_cases hT : T < 1
  · simp [generate_weight_history, hT]
  · cases p with
    | none => simp [generate_weight_history, hT, hdraw]
    | some probs =>
      simp only [generate_weight_history, if_neg hT]
      split_ifs with h1 h2 h3 h4
      · simp [hdraw]
      · simp [hdraw]
      · exact congrArg Except.ok (hdraw1 probs h4)
      · rfl
      · rfl

lemma simLoop_congr (k n : ℕ) (probs : List ℚ) (s1 s2 : ℕ → ℚ) :
    ∀ (rows : List (List ℚ)) (t pos : ℕ) (cur : Option (List ℚ)),
      (∀ i, i < pos + n * rows.length → s1 i = s2 i) →
      simLoop k n probs s1 rows t pos cur =
        simLoop k n probs s2 rows t pos cur := by
  intro rows
  induction rows with
  | nil => intro t pos cur _; simp [simLoop]
  | cons row rest ih =>
    intro t pos cur h
    have hbound : pos + n * (row :: rest).length = pos + n + n * rest.length := by
      simp only [List.length_cons, Nat.mul_succ]
      ring
    by_cases hc : t % k = 0 ∨ cur = none
    · have hw : drawWeights probs s1 pos n = drawWeights probs s2 pos n := by
        apply drawWeights_congr
        intro i hi
        apply h
        rw [hbound]
        calc pos + i < pos + n := Nat.add_lt_add_left hi _
          _ ≤ pos + n + n * rest.length := Nat.le_add_right _ _
      simp only [simLoop, if_pos hc]
      rw [hw, ih (t + 1) (pos + n) (some (drawWeights probs s2 pos n))
        (fun i hi => h i (by rw [hbound]; omega))]
    · simp only [simLoop, if_neg hc]
      rw [ih (t + 1) pos cur (fun i hi => h i (by
        refine lt_of_lt_of_le hi ?_
        rw [hbound]
        omega))]

lemma simulate_portfolio_returns_congr (k : ℕ) (p : Option (List ℚ))
    (rows : List (List ℚ)) (s1 s2 : ℕ → ℚ)
    (h : ∀ i, i < (rows.headD []).length * rows.length → s1 i = s2 i) :
    simulate_portfolio_returns rows s1 p k =
      simulate_portfolio_returns rows s2 p k := by
  by_cases hk : k < 1
  · simp [simulate_portfolio_returns, hk]
  · simp only [simulate_portfolio_returns, if_neg hk]
    rw [simLoop_congr k _ _ s1 s2 rows 0 0 none (fun i hi => h i (by
      simpa [Nat.mul_comm] using hi))]

/-- C3: determinism.  A fixed seed fixes the abstract uniform stream, and
each operation's output depends only on the stream values it actually
consumes (`n` samples for one weight draw, `n_periods * n_assets` for a
weight history, at most one draw per period for the simulator) together
with the remaining inputs.  Two calls with the same seed and identical
inputs therefore return identical arrays. -/
theorem seeded_runs_identical (n T k : ℕ) (p : Option (List ℚ))
    (rows : List (List ℚ)) (s1 s2 : ℕ → ℚ) :
    ((∀ i, i < n → s1 i = s2 i) →
      simulate_random_weights n s1 p = simulate_random_weights n s2 p) ∧
    ((∀ i, i < T * n → s1 i = s2 i) →
      generate_weight_history n T s1 p = generate_weight_history n T s2 p) ∧
    ((∀ i, i < (rows.headD []).length * rows.length → s1 i = s2 i) →
      simulate_portfolio_returns rows s1 p k =
        simulate_portfolio_returns rows s2 p k) :=
  ⟨simulate_random_weights_congr n p s1 s2,
   generate_weight_history_congr n T p s1 s2,
   simulate_portfolio_returns_congr k p rows s1 s2⟩

theorem seeded_runs_identical_witness :
    ((∀ i, i < 3 → (fun _ => (1 : ℚ) / 2) i = (fun _ => (1 : ℚ) / 2) i) →
      simulate_random_weights 3 (fun _ => (1 : ℚ) / 2) none =
        simulate_random_weights 3 (fun _ => (1 : ℚ) / 2) none) ∧
    ((∀ i, i < 2 * 3 → (fun _ => (1 : ℚ) / 2) i = (fun _ => (1 : ℚ) / 2) i) →
      generate_weight_history 3 2 (fun _ => (1 : ℚ) / 2) none =
        generate_weight_history 3 2 (fun _ => (1 : ℚ) / 2) none) ∧
    ((∀ i, i < (([[1], [2]] : List (List ℚ)).headD []).length *
        ([[1], [2]] : List (List ℚ)).length →
        (fun _ => (1 : ℚ) / 2) i = (fun _ => (1 : ℚ) / 2) i) →
      simulate_portfolio_returns [[1], [2]] (fun _ => (1 : ℚ) / 2) none 1 =
        simulate_portfolio_returns [[1], [2]] (fun _ => (1 : ℚ) / 2) none 1) :=
  seeded_runs_identical 3 2 1 none [[1], [2]]
    (fun _ => (1 : ℚ) / 2) (fun _ => (1 : ℚ) / 2)

/-! Per-period portfolio return. -/

lemma np_dot_eq_sum (w r : List ℚ) (h : w.length = r.length) :
    np_dot w r = ∑ i ∈ Finset.range w.length, w.getD i 0 * r.getD i 0 := by
  induction w generalizing r with
  | nil => simp [np_dot]
  | cons a as ih =>
    cases r with
    | nil => simp at h
    | cons b bs =>
      have hlen : as.length = bs.length := by simpa using h
      rw [List.length_cons, Finset.sum_range_succ']
      simp only [List.getD_cons_succ, List.getD_cons_zero]
      rw [← ih bs hlen]
      simp [np_dot]
      ring

/-- C4, counterexample: with one weight and two asset returns the code
raises (length mismatch) instead of silently ignoring the extra entry of
`asset_returns` — and no `MissingKeyError` exists in this module at all
(the weights/returns interface is positional arrays, not keyed mappings). -/
theorem calc_return_extra_asset_errors :
    calculate_portfolio_return [1] [1/20, 1/50] =
      .error (.valueError "weights length must match returns length") := rfl

/-- C4, amended: `calculate_portfolio_return` computes
`sum_i weights[i] * returns[i]` over two equal-length positional arrays
(for weights `[0.6, 0.4]` and returns `[-0.10, 0.05]` this is `-0.04`),
and fails with `ValueError` whenever the lengths differ — in either
direction; entries of `asset_returns` beyond the weights are not ignored. -/
theorem calc_return_weighted_sum (w r : List ℚ) :
    (w.length = r.length →
      calculate_portfolio_return w r =
        .ok (∑ i ∈ Finset.range w.length, w.getD i 0 * r.getD i 0)) ∧
    (w.length ≠ r.length →
      calculate_portfolio_return w r =
        .error (.valueError "weights length must match returns length")) := by
  constructor
  · intro h
    rw [calculate_portfolio_return, if_neg (by simp [h]), np_dot_eq_sum w r h]
  · intro h
    rw [calculate_portfolio_return, if_pos h]

theorem calc_return_weighted_sum_witness :
    calculate_portfolio_return [6/10, 4/10] [-(1/10), 1/20] =
      .ok (-(1/25)) ∧
    calculate_portfolio_return [6/10] [-(1/10), 1/20] =
      .error (.valueError "weights length must match returns length") := by
  constructor
  · rw [(calc_return_weighted_sum [6/10, 4/10] [-(1/10), 1/20]).1 (by rfl)]
    norm_num [Finset.sum_range_succ]
  · exact (calc_return_weighted_sum [6/10] [-(1/10), 1/20]).2 (by decide)

/-! Single-asset degeneration of the simulator. -/

lemma drawWeights_one (stream : ℕ → ℚ) (pos : ℕ) (h : stream pos ≠ 0) :
    drawWeights (uniformProbs 1) stream pos 1 = [1] := by
  simp [drawWeights, uniformProbs, List.range_succ, div_self h]

lemma simLoop_single (stream : ℕ → ℚ) (h : ∀ i, stream i ≠ 0) :
    ∀ (rs : List ℚ) (t pos : ℕ) (cur : Option (List ℚ)),
      simLoop 1 1 (uniformProbs 1) stream (rs.map (fun r => [r])) t pos cur =
        rs := by
  intro rs
  induction rs with
  | nil => intro t pos cur; simp [simLoop]
  | cons r rs ih =>
    intro t pos cur
    have hcond : t % 1 = 0 ∨ cur = none := Or.inl (Nat.mod_one t)
    simp only [List.map_cons, simLoop, if_pos hcond]
    rw [drawWeights_one stream pos (h pos)]
    simp [np_dot, ih]

/-- C8: over a single-asset returns matrix with `rebalance_frequency = 1`,
the simulated portfolio reproduces the asset's own return series exactly:
the lone weight is `raw/raw.sum() = 1` at every period (the uniform sample
being nonzero, as it almost surely is), so each output equals that
period's asset return. -/
theorem single_asset_identity (rs : List ℚ) (stream : ℕ → ℚ)
    (h : ∀ i, stream i ≠ 0) :
    simulate_portfolio_returns (rs.map (fun r => [r])) stream none 1 =
      .ok rs := by
  cases rs with
  | nil => simp [simulate_portfolio_returns, simLoop]
  | cons r rs =>
    have hn : (((r :: rs).map (fun r => [r])).headD []).length = 1 := by simp
    simp only [simulate_portfolio_returns, if_neg (by norm_num : ¬ (1 : ℕ) < 1),
      hn, Option.getD_none]
    exact congrArg Except.ok (simLoop_single stream h (r :: rs) 0 0 none)

theorem single_asset_identity_witness :
    simulate_portfolio_returns
        (([1/10, -(2/10), 3/100] : List ℚ).map (fun r => [r]))
        (fun _ => (1 : ℚ) / 2) none 1 = .ok [1/10, -(2/10), 3/100] :=
  single_asset_identity [1/10, -(2/10), 3/100] (fun _ => (1 : ℚ) / 2)
    (fun _ => by norm_num)

/-- C7 (evidence of the missing validation): `generate_weight_history`
accepts an empty asset universe — `generate_weight_history(0, 1)` returns
one empty row instead of raising, although its own docstring promises
`ValueError` for `n_assets < 1` — and accepts a probabilities vector of
length 1 for 3 assets (numpy broadcasting), although the spec requires one
entry per asset; `simulate_random_weights` does perform both checks, and
the `n_periods` check of `generate_weight_history` is present. -/
theorem generate_weight_history_skips_validation :
    generate_weight_history 0 1 (fun _ => (1 : ℚ) / 2) none = .ok [[]] ∧
    generate_weight_history 3 2 (fun _ => (1 : ℚ) / 2) (some [1]) =
      .ok [[1/3, 1/3, 1/3], [1/3, 1/3, 1/3]] ∧
    generate_weight_history 3 0 (fun _ => (1 : ℚ) / 2) none =
      .error (.valueError "n_periods must be positive") ∧
    simulate_random_weights 0 (fun _ => (1 : ℚ) / 2) none =
      .error (.valueError "n_assets must be positive") ∧
    simulate_random_weights 3 (fun _ => (1 : ℚ) / 2) (some [1]) =
      .error (.valueError "probabilities length must match n_assets") := by
  refine ⟨rfl, ?_, rfl, rfl, rfl⟩
  norm_num [generate_weight_history, np_isclose, drawWeights, List.range_succ,
    List.zipWith_cons_cons, List.replicate_succ]

/-- C10: `MonkeyPortfolio.__post_init__` enforces the portfolio invariant
at construction time.  Construction succeeds iff the weights array and
tickers list have equal length, the weights sum to `1.0` within numpy's
`isclose` tolerance, and every weight is non-negative; consequently every
successfully constructed portfolio carries exactly those weights and
tickers, satisfies the long-only fully-invested invariant, and its
`n_assets` property equals the number of tickers. -/
theorem mkMonkeyPortfolio_invariant (w : List ℚ) (t : List String)
    (s : Option ℤ) :
    ((∃ p, mkMonkeyPortfolio w t s = .ok p) ↔
      (w.length = t.length ∧ np_isclose w.sum 1 = true ∧ ∀ x ∈ w, 0 ≤ x)) ∧
    (∀ p, mkMonkeyPortfolio w t s = .ok p →
      p.weights = w ∧ p.tickers = t ∧ p.n_assets = t.length ∧
        (∀ x ∈ p.weights, 0 ≤ x) ∧ np_isclose p.weights.sum 1 = true) := by
  unfold mkMonkeyPortfolio
  by_cases h1 : w.length ≠ t.length
  · rw [if_pos h1]
    refine ⟨⟨?_, ?_⟩, ?_⟩
    · rintro ⟨p, hp⟩
      simp at hp
    · rintro ⟨hlen, _, _⟩
      exact absurd hlen h1
    · intro p hp
      simp at hp
  rw [if_neg h1]
  have hlen := not_not.mp h1
  by_cases h2 : ¬ np_isclose w.sum 1
  · rw [if_pos h2]
    refine ⟨⟨?_, ?_⟩, ?_⟩
    · rintro ⟨p, hp⟩
      simp at hp
    · rintro ⟨_, hclose, _⟩
      exact absurd hclose h2
    · intro p hp
      simp at hp
  rw [if_neg h2]
  have hclose : np_isclose w.sum 1 = true := not_not.mp h2
  by_cases h3 : w.any (fun x => x < 0) = true
  · rw [if_pos h3]
    have hneg : ∃ x ∈ w, x < 0 := by simpa using h3
    refine ⟨⟨?_, ?_⟩, ?_⟩
    · rintro ⟨p, hp⟩
      simp at hp
    · rintro ⟨_, _, hnn⟩
      rcases hneg with ⟨x, hx, hlt⟩
      exact absurd (hnn x hx) (not_le.mpr hlt)
    · intro p hp
      simp at hp
  rw [if_neg h3]
  have hnn : ∀ x ∈ w, 0 ≤ x := by
    intro x hx
    by_contra hlt
    exact h3 (by simpa using ⟨x, hx, not_le.mp hlt⟩)
  refine ⟨⟨fun _ => ⟨hlen, hclose, hnn⟩, fun _ => ⟨⟨w, t, s⟩, rfl⟩⟩, ?_⟩
  intro p hp
  injection hp with h
  subst h
  exact ⟨rfl, rfl, rfl, hnn, hclose⟩

theorem mkMonkeyPortfolio_invariant_witness :
    ∃ p, mkMonkeyPortfolio [3/10, 5/10, 2/10] ["AAPL", "GOOG", "MSFT"]
      (some 42) = .ok p :=
  (mkMonkeyPortfolio_invariant [3/10, 5/10, 2/10] ["AAPL", "GOOG", "MSFT"]
    (some 42)).1.mpr ⟨rfl, by norm_num [np_isclose], by norm_num⟩

/-- C9: the ticker validity filter includes a (non-`Date`) column in its
result exactly when that column's count of non-missing values reaches
`min_observations`; it is a pure function of its input (the embedding is a
total function and the input frame is left untouched), and a table with no
asset columns yields an empty list. -/
theorem get_valid_tickers_spec (f : PFrame) (m : ℕ) :
    (∀ name, name ∈ get_valid_tickers f m ↔
      ∃ c ∈ f.cols, c.1 = name ∧ c.1 ≠ "Date" ∧
        m ≤ c.2.countP (fun cell => cell.isSome)) ∧
    (f.cols.filter (fun c => c.1 ≠ "Date") = [] →
      get_valid_tickers f m = []) := by
  constructor
  · intro name
    simp only [get_valid_tickers, List.mem_map, List.mem_filter,
      decide_eq_true_eq]
    constructor
    · rintro ⟨c, ⟨⟨hc, hd⟩, hcount⟩, rfl⟩
      exact ⟨c, hc, rfl, hd, hcount⟩
    · rintro ⟨c, hc, rfl, hd, hcount⟩
      exact ⟨c, ⟨⟨hc, hd⟩, hcount⟩, rfl⟩
  · intro h
    simp only [get_valid_tickers]
    rw [h]
    rfl

theorem get_valid_tickers_spec_witness :
    "FULL" ∈ get_valid_tickers
      ⟨[], [("FULL", List.replicate 300 (some (1 : ℝ))),
            ("PARTIAL", List.replicate 100 (some (1 : ℝ)) ++
              List.replicate 200 none)]⟩ 252 ∧
    "PARTIAL" ∉ get_valid_tickers
      ⟨[], [("FULL", List.replicate 300 (some (1 : ℝ))),
            ("PARTIAL", List.replicate 100 (some (1 : ℝ)) ++
              List.replicate 200 none)]⟩ 252 ∧
    "PARTIAL" ∈ get_valid_tickers
      ⟨[], [("FULL", List.replicate 300 (some (1 : ℝ))),
            ("PARTIAL", List.replicate 100 (some (1 : ℝ)) ++
              List.replicate 200 none)]⟩ 100 := by
  refine ⟨?_, ?_, ?_⟩
  · refine ((get_valid_tickers_spec _ 252).1 "FULL").mpr
      ⟨("FULL", List.replicate 300 (some (1 : ℝ))),
        List.mem_cons_self _ _, rfl, by decide, ?_⟩
    rw [List.countP_replicate]
    norm_num
  · intro hmem
    rcases ((get_valid_tickers_spec _ 252).1 "PARTIAL").mp hmem with
      ⟨c, hc, hname, _, hcount⟩
    rcases List.mem_cons.mp hc with rfl | hc2
    · exact absurd hname (by decide)
    rcases List.mem_cons.mp hc2 with rfl | hc3
    · rw [List.countP_append, List.countP_replicate,
        List.countP_replicate] at hcount
      norm_num at hcount
    · exact absurd hc3 (List.not_mem_nil c)
  · refine ((get_valid_tickers_spec _ 100).1 "PARTIAL").mpr
      ⟨("PARTIAL", List.replicate 100 (some (1 : ℝ)) ++
          List.replicate 200 none),
        List.mem_cons_of_mem _ (List.mem_cons_self _ _), rfl, by decide, ?_⟩
    rw [List.countP_append, List.countP_replicate, List.countP_replicate]
    norm_num

/-! The loader: strict float cast. -/

lemma castColumn_no_text (cells : List Cell)
    (h : ∀ cell ∈ cells, ∀ s, cell ≠ .text s) :
    castColumn cells = .ok (cells.map (fun cell => match cell with
      | Cell.num q => some q
      | _ => none)) := by
  induction cells with
  | nil => rfl
  | cons cell rest ih =>
    have hrest : ∀ c ∈ rest, ∀ s, c ≠ Cell.text s :=
      fun c hc => h c (List.mem_cons_of_mem _ hc)
    have ihr := ih hrest
    cases cell with
    | blank =>
      simp only [castColumn, List.mapM_cons, castCell] at ihr ⊢
      rw [ihr]
      rfl
    | num q =>
      simp only [castColumn, List.mapM_cons, castCell] at ihr ⊢
      rw [ihr]
      rfl
    | text s => exact absurd rfl (h _ (List.mem_cons_self _ _) s)

lemma castCols_no_text (cols : List (String × List Cell))
    (h : ∀ c ∈ cols, ∀ cell ∈ c.2, ∀ s, cell ≠ .text s) :
    cols.mapM (fun c => (castColumn c.2).map (fun col => (c.1, col))) =
      .ok (cols.map (fun c => (c.1, c.2.map (fun cell => match cell with
        | Cell.num q => some q
        | _ => none)))) := by
  induction cols with
  | nil => rfl
  | cons c rest ih =>
    rw [List.mapM_cons, castColumn_no_text c.2 (h c (List.mem_cons_self _ _)),
      ih (fun d hd => h d (List.mem_cons_of_mem _ hd))]
    rfl

/-- C6 (confirmed clauses, plus the amended cast clause): the loader fails
with `FileNotFoundError` when the path does not exist and with `ValueError`
when the parsed table has zero rows; otherwise, when no cell is unparsable
text, every non-date column is coerced to float with numeric cells kept and
empty (missing) cells becoming null.  An unparsable text cell, however,
aborts the load (polars' default strict cast) — see the counterexample. -/
theorem load_prices_spec (fs : String → Option RawFrame) (path : String) :
    (fs path = none →
      load_prices_from_csv fs path =
        .error (.fileNotFound "Price file not found")) ∧
    (∀ raw, fs path = some raw → raw.dates = [] →
      load_prices_from_csv fs path =
        .error (.valueError "Price file is empty")) ∧
    (∀ raw, fs path = some raw → raw.dates ≠ [] →
      (∀ c ∈ raw.cols, ∀ cell ∈ c.2, ∀ s, cell ≠ Cell.text s) →
      load_prices_from_csv fs path =
        .ok ⟨raw.dates, (raw.cols.filter (fun c => c.1 ≠ "Date")).map
          (fun c => (c.1, c.2.map (fun cell => match cell with
            | Cell.num q => some q
            | _ => none)))⟩) := by
  refine ⟨?_, ?_, ?_⟩
  · intro h
    simp [load_prices_from_csv, h]
  · intro raw hr hd
    simp [load_prices_from_csv, hr, hd]
  · intro raw hr hd hno
    simp only [load_prices_from_csv, hr]
    rw [if_neg (by simpa [List.isEmpty_iff] using hd)]
    rw [castCols_no_text _ (fun c hc => hno c (List.mem_of_mem_filter hc))]

/-- C6, counterexample: a cell that fails to parse as a number does not
become a missing value — the strict `cast(pl.Float64)` raises, aborting
the whole load. -/
theorem load_prices_text_cell_aborts :
    load_prices_from_csv
      (fun p => if p = "prices.csv"
        then some ⟨[0], [("A", [Cell.text "oops"])]⟩ else none)
      "prices.csv" =
      .error (.computeError "conversion from str to f64 failed") := rfl

theorem load_prices_spec_witness :
    load_prices_from_csv
      (fun p => if p = "prices.csv"
        then some ⟨[0, 1], [("A", [Cell.num 100, Cell.blank])]⟩ else none)
      "prices.csv" =
      .ok ⟨[0, 1], [("A", [some 100, none])]⟩ := by
  have h := (load_prices_spec
    (fun p => if p = "prices.csv"
      then some ⟨[0, 1], [("A", [Cell.num 100, Cell.blank])]⟩ else none)
    "prices.csv").2.2
    ⟨[0, 1], [("A", [Cell.num 100, Cell.blank])]⟩ rfl (by simp)
    (by
      intro c hc cell hcell s
      rcases List.mem_cons.mp hc with rfl | hc2
      · rcases List.mem_cons.mp hcell with rfl | hcell2
        · exact fun hcon => Cell.noConfusion hcon
        · rcases List.mem_cons.mp hcell2 with rfl | hcell3
          · exact fun hcon => Cell.noConfusion hcon
          · exact absurd hcell3 (List.not_mem_nil _)
      · exact absurd hc2 (List.not_mem_nil _))
  exact h.trans (by rfl)

/-! Returns calculation: column transforms on fully-observed columns. -/

lemma pctGo_map_some (p : ℝ) (ps : List ℝ) :
    pctGo (some p) (ps.map some) =
      (List.zipWith (fun x y => y / x - 1) (p :: ps) ps).map some := by
  induction ps generalizing p with
  | nil => rfl
  | cons y rest ih =>
    simp only [List.map_cons, pctGo]
    rw [ih y]
    rfl

lemma pctChangeCol_map_some (ps : List ℝ) (h : ps ≠ []) :
    pctChangeCol (ps.map some) =
      none :: (List.zipWith (fun x y => y / x - 1) ps ps.tail).map some := by
  cases ps with
  | nil => exact absurd rfl h
  | cons p rest =>
    simp only [List.map_cons, pctChangeCol, pctGo]
    rw [pctGo_map_some p rest]
    rfl

lemma diffCol_map_some (ps : List ℝ) (h : ps ≠ []) :
    diffCol (ps.map some) =
      none :: (List.zipWith (fun x y => y - x) ps ps.tail).map some := by
  cases ps with
  | nil => exact absurd rfl h
  | cons p rest =>
    rw [show diffCol ((p :: rest).map some) =
      none :: List.zipWith (fun a b => a.bind fun x => b.map fun y => y - x)
        ((p :: rest).map some) ((p :: rest).map some).tail from rfl]
    rw [← List.map_tail, List.zipWith_map, List.map_zipWith]
    rfl

lemma logCol_map_some (ps : List ℝ) :
    logCol (ps.map some) = (ps.map Real.log).map some := by
  simp only [logCol, List.map_map]
  rfl

/-! Row filtering. -/

lemma applyMask_cons_false {α : Type} (x : α) (xs : List α) (bs : List Bool) :
    applyMask (x :: xs) (false :: bs) = applyMask xs bs := by
  simp [applyMask]

lemma applyMask_cons_true {α : Type} (x : α) (xs : List α) (bs : List Bool) :
    applyMask (x :: xs) (true :: bs) = x :: applyMask xs bs := by
  simp [applyMask]

lemma applyMask_replicate_true {α : Type} :
    ∀ (l : List α) (n : ℕ), l.length ≤ n →
      applyMask l (List.replicate n true) = l := by
  intro l
  induction l with
  | nil => intro n _; cases n <;> simp [applyMask]
  | cons x xs ih =>
    intro n hn
    cases n with
    | zero => simp at hn
    | succ n =>
      rw [List.replicate_succ, applyMask_cons_true, ih n (by simpa using hn)]

lemma applyMask_mem {α : Type} (d : α) :
    ∀ (l : List α) (mask : List Bool) (x : α), x ∈ applyMask l mask →
      ∃ i, i < l.length ∧ i < mask.length ∧ mask.getD i false = true ∧
        x = l.getD i d := by
  intro l
  induction l with
  | nil => intro mask x hx; simp [applyMask] at hx
  | cons a as ih =>
    intro mask x hx
    cases mask with
    | nil => simp [applyMask] at hx
    | cons b bs =>
      cases b with
      | false =>
        rw [applyMask_cons_false] at hx
        rcases ih bs x hx with ⟨i, h1, h2, h3, h4⟩
        exact ⟨i + 1, by simpa using h1, by simpa using h2,
          by simpa using h3, by simpa using h4⟩
      | true =>
        rw [applyMask_cons_true] at hx
        rcases List.mem_cons.mp hx with rfl | hx2
        · exact ⟨0, by simp, by simp, by simp, by simp⟩
        · rcases ih bs x hx2 with ⟨i, h1, h2, h3, h4⟩
          exact ⟨i + 1, by simpa using h1, by simpa using h2,
            by simpa using h3, by simpa using h4⟩

lemma dropNullRows_no_null (f : PFrame) :
    ∀ c ∈ (dropNullRows f).cols, ∀ cell ∈ c.2, cell.isSome = true := by
  intro c hc cell hcell
  simp only [dropNullRows, List.mem_map] at hc
  rcases hc with ⟨c0, hc0, rfl⟩
  rcases applyMask_mem none c0.2 _ cell hcell with ⟨i, _, hi2, hi3, rfl⟩
  rw [List.getD_eq_getElem _ _ hi2, List.getElem_map, List.getElem_range] at hi3
  simp only [rowAllSome] at hi3
  exact List.all_eq_true.mp hi3 c0 hc0

lemma keepMask_shifted (m : ℕ) (cols2 : List (String × List (Option ℝ)))
    (hne : cols2 ≠ [])
    (hshape : ∀ c ∈ cols2, ∃ l : List ℝ, c.2 = none :: l.map some ∧
      l.length = m) :
    (List.range (m + 1)).map (rowAllSome cols2) =
      false :: List.replicate m true := by
  rw [List.range_succ_eq_map, List.map_cons]
  congr 1
  · rcases List.exists_mem_of_ne_nil cols2 hne with ⟨c0, hc0⟩
    rcases hshape c0 hc0 with ⟨l, hl, _⟩
    simp only [rowAllSome]
    apply List.all_eq_false.mpr
    exact ⟨c0, hc0, by rw [hl]; simp⟩
  · rw [List.map_map]
    apply List.eq_replicate_iff.mpr
    refine ⟨by simp, ?_⟩
    intro b hb
    rcases List.mem_map.mp hb with ⟨i, hi, rfl⟩
    have him : i < m := List.mem_range.mp hi
    simp only [Function.comp, rowAllSome, Nat.succ_eq_add_one]
    apply List.all_eq_true.mpr
    intro c hc
    rcases hshape c hc with ⟨l, hl, hlen⟩
    rw [hl, List.getD_cons_succ,
      List.getD_eq_getElem _ _ (by simpa [hlen] using him)]
    simp

lemma dropNullRows_cons_none (d : ℤ) (dtail : List ℤ)
    (cols : List (String × List ℝ)) (hne : cols ≠ [])
    (hlen : ∀ c ∈ cols, c.2.length = dtail.length) :
    dropNullRows
        ⟨d :: dtail, cols.map (fun c => (c.1, none :: c.2.map some))⟩ =
      ⟨dtail, cols.map (fun c => (c.1, c.2.map some))⟩ := by
  have hmask : (List.range ((d :: dtail).length)).map
      (rowAllSome (cols.map (fun c => (c.1, none :: c.2.map some)))) =
      false :: List.replicate dtail.length true := by
    rw [List.length_cons]
    refine keepMask_shifted dtail.length _ (by simpa using hne) ?_
    intro c2 hc2
    rcases List.mem_map.mp hc2 with ⟨c, hc, rfl⟩
    exact ⟨c.2, rfl, hlen c hc⟩
  simp only [dropNullRows, hmask]
  simp only [PFrame.mk.injEq]
  constructor
  · rw [applyMask_cons_false, applyMask_replicate_true dtail _ le_rfl]
  · rw [List.map_map]
    apply List.map_congr_left
    intro c hc
    simp only [Function.comp]
    rw [applyMask_cons_false,
      applyMask_replicate_true _ _ (by simp [hlen c hc])]

/-- C5, amended: on a price table whose asset columns are fully observed,
`calculate_returns` preserves the column names and their order, drops
exactly the first row, and produces per column the simple returns
`price[t]/price[t-1] - 1` (method `"simple"`) or the log returns
`ln(price[t]) - ln(price[t-1])` (method `"log"`); and — for any input
frame and method — every cell of the output is non-missing (rows whose
computed return is missing in any column are dropped).  On tables with
interior missing values the original per-row formula and uniform
row-drop fail, because polars `pct_change` computes the change versus
the most recent non-null earlier price — see the counterexample. -/
theorem calculate_returns_spec (dates : List ℤ)
    (cols : List (String × List ℝ))
    (hname : ∀ c ∈ cols, c.1 ≠ "Date")
    (hlen : ∀ c ∈ cols, c.2.length = dates.length)
    (hcols : cols ≠ []) (hdates : dates ≠ []) :
    calculate_returns ⟨dates, cols.map (fun c => (c.1, c.2.map some))⟩
      "simple" = .ok ⟨dates.tail, cols.map (fun c =>
        (c.1, (List.zipWith (fun x y => y / x - 1) c.2 c.2.tail).map some))⟩ ∧
    calculate_returns ⟨dates, cols.map (fun c => (c.1, c.2.map some))⟩
      "log" = .ok ⟨dates.tail, cols.map (fun c =>
        (c.1, (List.zipWith (fun x y => Real.log y - Real.log x)
          c.2 c.2.tail).map some))⟩ ∧
    (∀ (f : PFrame) (method : String) (g : PFrame),
      calculate_returns f method = .ok g →
      ∀ c ∈ g.cols, ∀ cell ∈ c.2, cell.isSome = true) := by
  cases dates with
  | nil => exact absurd rfl hdates
  | cons d dtail =>
  have hnonempty : ∀ c ∈ cols, c.2 ≠ [] := by
    intro c hc hcon
    have := hlen c hc
    rw [hcon] at this
    simp at this
  have hfilter : (cols.map (fun c => (c.1, c.2.map some))).filter
      (fun c => c.1 ≠ "Date") = cols.map (fun c => (c.1, c.2.map some)) := by
    apply List.filter_eq_self.mpr
    intro a ha
    rcases List.mem_map.mp ha with ⟨c, hc, rfl⟩
    exact decide_eq_true (hname c hc)
  have hinlen : ∀ (g : ℝ → ℝ → ℝ), ∀ c ∈ cols,
      (List.zipWith g c.2 c.2.tail).length = dtail.length := by
    intro g c hc
    rw [List.length_zipWith, List.length_tail, hlen c hc]
    simp [Nat.min_eq_right (Nat.sub_le _ 1)]
  refine ⟨?_, ?_, ?_⟩
  · simp only [calculate_returns, hfilter, if_pos rfl]
    have hcols2 : (cols.map (fun c => (c.1, c.2.map some))).map
        (fun c => (c.1, pctChangeCol c.2)) =
        (cols.map (fun c => (c.1, List.zipWith (fun x y => y / x - 1)
          c.2 c.2.tail))).map (fun c => (c.1, none :: c.2.map some)) := by
      rw [List.map_map, List.map_map]
      apply List.map_congr_left
      intro c hc
      simp only [Function.comp]
      rw [pctChangeCol_map_some c.2 (hnonempty c hc)]
    rw [hcols2, dropNullRows_cons_none d dtail _ (by simpa using hcols)
      (by
        intro c2 hc2
        rcases List.mem_map.mp hc2 with ⟨c, hc, rfl⟩
        exact hinlen _ c hc)]
    rw [List.map_map]
    rfl
  · simp only [calculate_returns, hfilter, if_neg (by decide : ¬ ("log" : String) = "simple"),
      if_pos rfl]
    have hcols2 : (cols.map (fun c => (c.1, c.2.map some))).map
        (fun c => (c.1, diffCol (logCol c.2))) =
        (cols.map (fun c => (c.1, List.zipWith
          (fun x y => Real.log y - Real.log x) c.2 c.2.tail))).map
          (fun c => (c.1, none :: c.2.map some)) := by
      rw [List.map_map, List.map_map]
      apply List.map_congr_left
      intro c hc
      simp only [Function.comp]
      rw [logCol_map_some, diffCol_map_some (c.2.map Real.log)
        (by simpa using hnonempty c hc)]
      rw [← List.map_tail, List.zipWith_map]
    rw [hcols2, dropNullRows_cons_none d dtail _ (by simpa using hcols)
      (by
        intro c2 hc2
        rcases List.mem_map.mp hc2 with ⟨c, hc, rfl⟩
        exact hinlen _ c hc)]
    rw [List.map_map]
    rfl
  · intro f method g hok
    simp only [calculate_returns] at hok
    by_cases hs : method = "simple"
    · rw [if_pos hs] at hok
      injection hok with hok
      rw [← hok]
      exact dropNullRows_no_null _
    · rw [if_neg hs] at hok
      by_cases hl : method = "log"
      · rw [if_pos hl] at hok
        injection hok with hok
        rw [← hok]
        exact dropNullRows_no_null _
      · rw [if_neg hl] at hok
        exact absurd hok (by simp)

/-- C5, counterexample: on a column with an interior missing value the
claimed per-row formula and uniform row-drop both fail.  With prices
`[10, 11, 12, null, 12]`, method `"simple"` keeps the post-gap row
(input row 4) with value `12/12 - 1 = 0` — the change versus the most
recent non-null price `12` at row 2, not `price[4]/price[3] - 1`, whose
denominator is missing — while method `"log"` nulls that row and drops
it.  So the surviving value is not described by the claimed formula, and
the two methods do not even drop the same rows (3 output rows versus 2)
although the claim gives both the same drop policy. -/
theorem pct_change_gap_counterexample :
    calculate_returns ⟨[0, 1, 2, 3, 4],
        [("A", [some (10 : ℝ), some 11, some 12, none, some 12])]⟩
      "simple" = .ok ⟨[1, 2, 4],
        [("A", [some ((11 : ℝ) / 10 - 1), some (12 / 11 - 1),
          some (12 / 12 - 1)])]⟩ ∧
    calculate_returns ⟨[0, 1, 2, 3, 4],
        [("A", [some (10 : ℝ), some 11, some 12, none, some 12])]⟩
      "log" = .ok ⟨[1, 2],
        [("A", [some (Real.log 11 - Real.log 10),
          some (Real.log 12 - Real.log 11)])]⟩ ∧
    (12 : ℝ) / 12 - 1 = 0 :=
  ⟨rfl, rfl, by norm_num⟩

theorem calculate_returns_spec_witness :
    calculate_returns ⟨[0, 1], [("A", [some (100 : ℝ), some 102])]⟩
      "simple" = .ok ⟨[1], [("A", [some (0.02 : ℝ)])]⟩ ∧
    calculate_returns ⟨[0, 1], [("A", [some (100 : ℝ), some 102])]⟩
      "log" = .ok ⟨[1], [("A", [some (Real.log 1.02)])]⟩ := by
  have h := calculate_returns_spec [0, 1] [("A", [(100 : ℝ), 102])]
    (by
      intro c hc
      rcases List.mem_cons.mp hc with rfl | hc2
      · decide
      · exact absurd hc2 (List.not_mem_nil c))
    (by
      intro c hc
      rcases List.mem_cons.mp hc with rfl | hc2
      · rfl
      · exact absurd hc2 (List.not_mem_nil c))
    (by simp) (by simp)
  constructor
  · rw [show (⟨[0, 1], [("A", [some (100 : ℝ), some 102])]⟩ : PFrame) =
      ⟨[0, 1], ([("A", [(100 : ℝ), 102])] : List (String × List ℝ)).map
        (fun c => (c.1, c.2.map some))⟩ from rfl, h.1]
    norm_num
  · rw [show (⟨[0, 1], [("A", [some (100 : ℝ), some 102])]⟩ : PFrame) =
      ⟨[0, 1], ([("A", [(100 : ℝ), 102])] : List (String × List ℝ)).map
        (fun c => (c.1, c.2.map some))⟩ from rfl, h.2.1]
    have hlog : Real.log 1.02 = Real.log 102 - Real.log 100 := by
      rw [show (1.02 : ℝ) = 102 / 100 by norm_num,
        Real.log_div (by norm_num) (by norm_num)]
    simp [hlog]
